import Mathlib

/-!
Shallow embedding of the fixed-capacity string library (namespace `zuu`) from
`constant_string_detail.hpp` and `constant_string_algorithms.hpp`.

Character units are modelled as `Nat` (their unsigned unit values); `std::size_t`
arithmetic uses `Nat`, with the not-found sentinel `npos = 2^64 - 1` kept as an
explicit constant.  Raw (possibly null) `const CharT*` arguments are modelled as
`Option (List Nat)`: `none` is the null pointer, `some l` a terminated sequence
whose content before the terminator is `l` (so `strlen` is `l.length`).
Buffers for the overlap-safe move are modelled as functions `Nat → Nat` over a
common index space.  All recursions are structural (explicit fuel where the C++
loop is value-driven) so every definition evaluates by `decide`/`rfl`.
-/

namespace zuu

namespace detail

/-- Not-found sentinel: `static_cast<std::size_t>(-1)` on a 64-bit target. -/
def npos : Nat := 2 ^ 64 - 1

/-- Embeds `strcmp(a, b, len)` (first-differing-unit comparison of the first
`len` units).  The null-pointer branches of the C++ function are unreachable
from the call sites modelled here (all callers null-check first), and the
pointer-equality shortcut is semantically redundant for content lists, so both
are omitted. -/
def strcmp : List Nat → List Nat → Nat → Int
  | _, _, 0 => 0
  | x :: xs, y :: ys, n + 1 =>
    if x ≠ y then (if x < y then -1 else 1) else strcmp xs ys n
  | _, _, _ + 1 => 0

/-- Embeds `strcmp_full(a, len_a, b, len_b)`: compare the common length, then
break ties by length. -/
def strcmp_full (a : List Nat) (la : Nat) (b : List Nat) (lb : Nat) : Int :=
  let min_len := if la < lb then la else lb
  let result := strcmp a b min_len
  if result ≠ 0 then result
  else if la < lb then -1
  else if la > lb then 1
  else 0

/-- Embeds `find_char(str, len, ch, pos)`. -/
def find_char (str : List Nat) (len : Nat) (ch : Nat) (pos : Nat) : Nat :=
  if pos ≥ len then npos
  else
    match (List.range len).drop pos |>.find? (fun i => str.getD i 0 == ch) with
    | some i => i
    | none => npos

/-- Inner loop of `find_substring`: does the needle match the haystack at
offset `i` (unit-by-unit comparison of `nl` units)? -/
def match_at (hay nd : List Nat) (nl i : Nat) : Bool :=
  (List.range nl).all (fun j => hay.getD (i + j) 0 == nd.getD j 0)

/-- Outer loop of `find_substring`: try offsets `i, i+1, ...` for `rem`
iterations, returning the first offset that matches, else `npos`. -/
def find_loop (hay nd : List Nat) (nl : Nat) : Nat → Nat → Nat
  | _, 0 => npos
  | i, rem + 1 => if match_at hay nd nl i then i else find_loop hay nd nl (i + 1) rem

/-- Embeds `find_substring(haystack, haystack_len, needle, needle_len, pos)`.
The C++ scan `for (i = pos; i <= haystack_len - needle_len; ++i)` is the fuel
call `find_loop … pos (hl - nl + 1 - pos)`. -/
def find_substring (hay : List Nat) (hl : Nat) (nd : List Nat) (nl : Nat)
    (pos : Nat) : Nat :=
  if nl = 0 then (if pos ≤ hl then pos else npos)
  else if nl > hl then npos
  else if pos > hl - nl then npos
  else find_loop hay nd nl pos (hl - nl + 1 - pos)

/-- The needle matches the haystack at offset `i`: it fits inside the haystack
and agrees with it unit for unit — the property whose earliest witness at or
after `pos` the scan of `find_substring` looks for. -/
def matches_at (hay nd : List Nat) (i : Nat) : Prop :=
  i + nd.length ≤ hay.length ∧ ∀ j, j < nd.length → hay.getD (i + j) 0 = nd.getD j 0

/-- Point update of a buffer modelled as a function on indices. -/
def upd (buf : Nat → Nat) (k v : Nat) : Nat → Nat :=
  fun x => if x = k then v else buf x

/-- Forward element-wise copy: `for (i = 0; i < count; ++i) dest[i] = src[i]`,
each read seeing all earlier writes. -/
def copy_fwd (buf : Nat → Nat) (d s : Nat) : Nat → (Nat → Nat)
  | 0 => buf
  | c + 1 => copy_fwd (upd buf d (buf s)) (d + 1) (s + 1) c

/-- Backward element-wise copy: `for (i = count; i > 0; --i)
dest[i-1] = src[i-1]`, each read seeing all earlier writes. -/
def copy_bwd (buf : Nat → Nat) (d s : Nat) : Nat → (Nat → Nat)
  | 0 => buf
  | c + 1 => copy_bwd (upd buf (d + c) (buf (s + c))) d s c

/-- Embeds `memmove_string(dest, src, count)` over a common buffer: forward
copy when the destination precedes the source, backward copy otherwise. -/
def memmove_string (buf : Nat → Nat) (d s c : Nat) : Nat → Nat :=
  if d = s ∨ c = 0 then buf
  else if d < s then copy_fwd buf d s c
  else copy_bwd buf d s c

/-- FNV-1a offset basis. -/
def FNV_OFFSET : Nat := 14695981039346656037

/-- FNV-1a prime. -/
def FNV_PRIME : Nat := 1099511628211

/-- One FNV-1a step on a 64-bit accumulator: XOR in the unit's unsigned byte
value (`static_cast<unsigned char>` is reduction mod 256), then multiply by the
prime modulo `2^64`. -/
def hash_step (h c : Nat) : Nat :=
  ((h ^^^ (c % 256)) * FNV_PRIME) % 2 ^ 64

/-- Index-driven loop of `hash_fnv1a`: fold `rem` further units starting at
index `i`. -/
def hash_loop (str : List Nat) : Nat → Nat → Nat → Nat
  | h, _, 0 => h
  | h, i, rem + 1 => hash_loop str (hash_step h (str.getD i 0)) (i + 1) rem

/-- Embeds `hash_fnv1a(str, len)`. -/
def hash_fnv1a (str : List Nat) (len : Nat) : Nat :=
  hash_loop str FNV_OFFSET 0 len

/-- Value-driven digit-count loop with explicit fuel (the loop divides by 10
until zero, so fuel `v` always suffices). -/
def count_digits_fuel : Nat → Nat → Nat
  | 0, _ => 0
  | fuel + 1, v => if v = 0 then 0 else count_digits_fuel fuel (v / 10) + 1

/-- Embeds `count_digits(value)`: base-10 digit count, with 0 counting as 1. -/
def count_digits (v : Nat) : Nat :=
  if v = 0 then 1 else count_digits_fuel v v

/-- Digit-emitting loop of `uint_to_chars`:
`while (temp > 0 && pos < capacity) buffer[pos++] = '0' + temp % 10`, returned
as the list of written digit characters, least significant first.  Structural
on the remaining room, which also bounds the C++ `pos < capacity` test. -/
def digits_loop : Nat → Nat → List Nat
  | _, 0 => []
  | temp, room + 1 =>
    if temp = 0 then [] else (48 + temp % 10) :: digits_loop (temp / 10) room

/-- Embeds `uint_to_chars(buffer, capacity, value)`: the returned list is the
written character sequence (so the C++ return value is its length).  The final
in-place reversal is the `List.reverse`. -/
def uint_to_chars (capacity : Nat) (value : Nat) : List Nat :=
  if capacity = 0 then []
  else if value = 0 then [48]
  else (digits_loop value capacity).reverse

/-- Embeds `int_to_chars(buffer, capacity, value)` for a signed type of bit
width `w` (so the most negative representable value is `-2^(w-1)`); the
returned list is the written character sequence, `45` is the code of the minus
sign. -/
def int_to_chars (w : Nat) (capacity : Nat) (v : Int) : List Nat :=
  if capacity = 0 then []
  else if v < 0 then
    if capacity < 2 then []
    else if v = -(2 ^ (w - 1) : Int) then
      45 :: uint_to_chars (capacity - 1) ((-(v + 1)).toNat + 1)
    else
      45 :: uint_to_chars (capacity - 1) (-v).toNat
  else
    uint_to_chars capacity v.toNat

end detail

/-- Spec-side decimal digits of `v`, least significant first, as '0'-based
character codes; fuel-driven so that it evaluates (`v` decreases under division
by 10, so fuel `v` suffices).  Written from the spec's words "base-10 digits";
related to Mathlib's `Nat.digits` below. -/
def lsd_chars_fuel : Nat → Nat → List Nat
  | 0, _ => []
  | fuel + 1, v => if v = 0 then [] else (48 + v % 10) :: lsd_chars_fuel fuel (v / 10)

/-- Spec-side decimal digits of `v`, least significant first. -/
def lsd_chars (v : Nat) : List Nat := lsd_chars_fuel v v

/-- Spec-side full decimal representation of `v > 0`: its base-10 digit
characters, most significant first. -/
def dec_rep (v : Nat) : List Nat := (lsd_chars v).reverse

/-- Spec-side FNV-1a, written from the spec's words: starting from the offset
basis, for each unit in order XOR in its unsigned byte value then multiply by
the prime, modulo `2^64`. -/
def fnv1a_spec (l : List Nat) : Nat :=
  l.foldl detail.hash_step detail.FNV_OFFSET

/-- The fixed-capacity string container `zuu::string<CharT, N>`: its observable
state is the content `data_[0 .. len_)` as a list of unit values, with the
container invariant `len_ ≤ N`. -/
structure string (N : Nat) where
  content : List Nat
  length_le : content.length ≤ N

namespace string

/-- Embeds `length()` / `len_`. -/
def len {N : Nat} (s : string N) : Nat := s.content.length

/-- Embeds `compare(const string<CharT, M>&)`. -/
def compare {N M : Nat} (a : string N) (b : string M) : Int :=
  detail.strcmp_full a.content a.len b.content b.len

/-- Embeds `compare(const CharT*)`: a null pointer yields 1 when the container
is nonempty and 0 otherwise; a present sequence goes through `strcmp_full`. -/
def compare_cstr {N : Nat} (s : string N) (str : Option (List Nat)) : Int :=
  match str with
  | none => if s.len > 0 then 1 else 0
  | some l => detail.strcmp_full s.content s.len l l.length

/-- Embeds `operator==(const string<CharT, M>&)`. -/
def beq {N M : Nat} (a : string N) (b : string M) : Bool :=
  a.len == b.len && string.compare a b == 0

/-- Embeds `operator<=>(const string<CharT, M>&)` (`std::strong_ordering`
becomes `Ordering`). -/
def spaceship {N M : Nat} (a : string N) (b : string M) : Ordering :=
  if string.compare a b < 0 then Ordering.lt
  else if string.compare a b > 0 then Ordering.gt
  else Ordering.eq

/-- Embeds `find(const CharT*, pos)`. -/
def find_cstr {N : Nat} (s : string N) (str : Option (List Nat)) (pos : Nat) : Nat :=
  match str with
  | none => detail.npos
  | some l => detail.find_substring s.content s.len l l.length pos

/-- Embeds `find(const string<CharT, M>&, pos)`. -/
def find_str {N M : Nat} (s : string N) (t : string M) (pos : Nat) : Nat :=
  detail.find_substring s.content s.len t.content t.len pos

/-- Embeds `find(CharT, pos)`. -/
def find_ch {N : Nat} (s : string N) (ch : Nat) (pos : Nat) : Nat :=
  detail.find_char s.content s.len ch pos

/-- Embeds `contains(const CharT*)`. -/
def contains_cstr {N : Nat} (s : string N) (str : Option (List Nat)) : Bool :=
  s.find_cstr str 0 != detail.npos

/-- Embeds `contains(const string<CharT, M>&)`. -/
def contains_str {N M : Nat} (s : string N) (t : string M) : Bool :=
  s.find_str t 0 != detail.npos

/-- Embeds `contains(CharT)`. -/
def contains_ch {N : Nat} (s : string N) (ch : Nat) : Bool :=
  s.find_ch ch 0 != detail.npos

/-- Embeds `hash()`. -/
def hash {N : Nat} (s : string N) : Nat :=
  detail.hash_fnv1a s.content s.len

/-- The default-constructed (empty) container. -/
def empty (N : Nat) : string N := ⟨[], by simp⟩

/-- Modelled from the spec: the member `append` lives in the class-definition
header that is not among the provided sources; per the spec it "writes
additional units at the current end" and on capacity overflow "writes as much
as fits and adjusts length", i.e. it keeps the longest part of the added text
that still fits. -/
def append {N : Nat} (s : string N) (t : List Nat) : string N :=
  ⟨s.content ++ t.take (N - s.content.length), by
    have h1 := s.length_le
    have h2 : (t.take (N - s.content.length)).length ≤ N - s.content.length :=
      List.length_take_le _ _
    simp only [List.length_append]
    omega⟩

end string

/-- Embeds the free function `concat(a, b)`: a fresh `string<CharT, N1 + N2>`
receiving `append(a)` then `append(b)`. -/
def concat {N1 N2 : Nat} (a : string N1) (b : string N2) : string (N1 + N2) :=
  ((string.empty (N1 + N2)).append a.content).append b.content

end zuu

/-! ## Lemmas about the primitive comparison -/

namespace zuu

namespace detail

theorem strcmp_zero (a b : List Nat) : strcmp a b 0 = 0 := by
  cases a <;> cases b <;> rfl

theorem strcmp_nil_left (b : List Nat) (n : Nat) : strcmp [] b n = 0 := by
  cases b <;> cases n <;> rfl

theorem strcmp_nil_right (a : List Nat) (n : Nat) : strcmp a [] n = 0 := by
  cases a <;> cases n <;> rfl

theorem strcmp_cons (x y : Nat) (xs ys : List Nat) (n : Nat) :
    strcmp (x :: xs) (y :: ys) (n + 1) =
      if x ≠ y then (if x < y then -1 else 1) else strcmp xs ys n := rfl

theorem strcmp_full_def (a : List Nat) (la : Nat) (b : List Nat) (lb : Nat) :
    strcmp_full a la b lb =
      if strcmp a b (if la < lb then la else lb) ≠ 0 then
        strcmp a b (if la < lb then la else lb)
      else if la < lb then -1
      else if la > lb then 1
      else 0 := rfl

theorem strcmp_refl : ∀ (a : List Nat) (n : Nat), strcmp a a n = 0
  | _, 0 => strcmp_zero _ _
  | [], _ + 1 => strcmp_nil_left _ _
  | x :: xs, n + 1 => by simp [strcmp_cons, strcmp_refl xs n]

theorem strcmp_antisym : ∀ (a b : List Nat) (n : Nat), strcmp a b n = -strcmp b a n
  | _, _, 0 => by simp [strcmp_zero]
  | [], b, _ + 1 => by simp [strcmp_nil_left, strcmp_nil_right]
  | _ :: _, [], _ + 1 => by simp [strcmp_nil_left, strcmp_nil_right]
  | x :: xs, y :: ys, n + 1 => by
    by_cases h : x = y
    · subst h
      simp [strcmp_cons, strcmp_antisym xs ys n]
    · have h2 : y ≠ x := fun e => h e.symm
      by_cases hlt : x < y
      · have h3 : ¬ y < x := by omega
        simp [strcmp_cons, h, h2, hlt, h3]
      · have h3 : y < x := by omega
        simp [strcmp_cons, h, h2, hlt, h3]

theorem strcmp_eq_zero_iff :
    ∀ (a b : List Nat) (n : Nat), n ≤ a.length → n ≤ b.length →
      (strcmp a b n = 0 ↔ a.take n = b.take n)
  | _, _, 0, _, _ => by simp [strcmp_zero]
  | [], _, n + 1, ha, _ => by simp at ha
  | _ :: _, [], _ + 1, _, hb => by simp at hb
  | x :: xs, y :: ys, n + 1, ha, hb => by
    by_cases h : x = y
    · subst h
      have ih := strcmp_eq_zero_iff xs ys n (by simpa using ha) (by simpa using hb)
      simp [strcmp_cons, List.take_succ_cons, ih]
    · constructor
      · intro he
        have hne : (if x < y then (-1 : Int) else 1) = 0 := by
          simpa [strcmp_cons, h] using he
        split at hne <;> simp at hne
      · intro he
        rw [List.take_succ_cons, List.take_succ_cons] at he
        exact absurd (List.head_eq_of_cons_eq he) h

theorem strcmp_full_zero_iff (a b : List Nat) (la lb : Nat)
    (ha : la ≤ a.length) (hb : lb ≤ b.length) :
    strcmp_full a la b lb = 0 ↔ (la = lb ∧ a.take la = b.take la) := by
  rw [strcmp_full_def]
  rcases Nat.lt_trichotomy la lb with h1 | h1 | h1
  · have hmin : (if la < lb then la else lb) = la := by simp [h1]
    rw [hmin]
    by_cases hc : strcmp a b la = 0
    · simp only [hc, ne_eq, not_true_eq_false, if_false, if_pos h1]
      constructor
      · intro h; simp at h
      · intro hk; omega
    · rw [if_pos hc]
      constructor
      · intro h; exact absurd h hc
      · intro hk; exact absurd hk.1 (by omega)
  · subst h1
    have hmin : (if la < la then la else la) = la := by simp
    rw [hmin]
    by_cases hc : strcmp a b la = 0
    · have hk := (strcmp_eq_zero_iff a b la ha hb).mp hc
      simp [hc, hk]
    · rw [if_pos hc]
      constructor
      · intro h; exact absurd h hc
      · intro hk
        exact absurd ((strcmp_eq_zero_iff a b la ha hb).mpr hk.2) hc
  · have h2 : ¬ la < lb := by omega
    have hmin : (if la < lb then la else lb) = lb := by simp [h2]
    rw [hmin]
    by_cases hc : strcmp a b lb = 0
    · simp only [hc, ne_eq, not_true_eq_false, if_false, if_neg h2]
      have h3 : la > lb := h1
      rw [if_pos h3]
      constructor
      · intro h; simp at h
      · intro hk; omega
    · rw [if_pos hc]
      constructor
      · intro h; exact absurd h hc
      · intro hk; exact absurd hk.1 (by omega)

theorem strcmp_full_content_iff (a b : List Nat) :
    strcmp_full a a.length b b.length = 0 ↔ a = b := by
  rw [strcmp_full_zero_iff a b a.length b.length (Nat.le_refl _) (Nat.le_refl _)]
  constructor
  · intro hk
    have hco := hk.2
    rwa [List.take_length, hk.1, List.take_length] at hco
  · intro h
    subst h
    simp

theorem strcmp_full_antisym (a : List Nat) (la : Nat) (b : List Nat) (lb : Nat) :
    strcmp_full a la b lb = -strcmp_full b lb a la := by
  have hmin : (if lb < la then lb else la) = (if la < lb then la else lb) := by
    by_cases h : la < lb
    · have h2 : ¬ lb < la := by omega
      simp [h, h2]
    · by_cases h2 : lb < la
      · simp [h, h2]
      · have h3 : la = lb := by omega
        simp [h, h2, h3]
  rw [strcmp_full_def, strcmp_full_def, hmin]
  have hanti := strcmp_antisym a b (if la < lb then la else lb)
  by_cases hc : strcmp a b (if la < lb then la else lb) = 0
  · have hc2 : strcmp b a (if la < lb then la else lb) = 0 := by omega
    rw [if_neg (not_not_intro hc), if_neg (not_not_intro hc2)]
    rcases Nat.lt_trichotomy la lb with h | h | h
    · have h2 : ¬ lb < la := by omega
      rw [if_pos h, if_neg h2, if_pos h]
    · subst h
      simp
    · have h2 : ¬ la < lb := by omega
      rw [if_neg h2, if_pos h, if_pos h]
      decide
  · have hc2 : strcmp b a (if la < lb then la else lb) ≠ 0 := by omega
    rw [if_pos hc, if_pos hc2]
    omega

end detail

end zuu

/-! ## Claims about comparison, equality, containment and concatenation -/

namespace zuu

/-- C1: for all containers `a` and `b` of any capacities, the three equality
views agree — `a == b` holds iff `compare(a, b) == 0` iff `operator<=>`
yields `Equal` — and `compare(a, b) == 0` holds iff `a` and `b` have the same
length and identical content. -/
theorem claim_C1_equality_views {N1 N2 : Nat} (a : string N1) (b : string N2) :
    (string.beq a b = true ↔ string.compare a b = 0) ∧
    (string.compare a b = 0 ↔ string.spaceship a b = Ordering.eq) ∧
    (string.compare a b = 0 ↔ (a.len = b.len ∧ a.content = b.content)) := by
  have hcontent : string.compare a b = 0 ↔ a.content = b.content := by
    unfold string.compare string.len
    exact detail.strcmp_full_content_iff a.content b.content
  refine ⟨?_, ?_, ?_⟩
  · unfold string.beq
    rw [Bool.and_eq_true, beq_iff_eq, beq_iff_eq]
    constructor
    · intro h; exact h.2
    · intro h
      refine ⟨?_, h⟩
      have hco := hcontent.mp h
      unfold string.len
      rw [hco]
  · unfold string.spaceship
    constructor
    · intro h
      rw [h]
      norm_num
    · intro h
      by_cases h1 : string.compare a b < 0
      · rw [if_pos h1] at h
        exact absurd h (by decide)
      · by_cases h2 : string.compare a b > 0
        · rw [if_neg h1, if_pos h2] at h
          exact absurd h (by decide)
        · omega
  · rw [hcontent]
    constructor
    · intro h
      refine ⟨?_, h⟩
      unfold string.len
      rw [h]
    · intro h
      exact h.2

/-- C9: the three-way comparison is reflexive (`compare(a, a) == 0`) and
antisymmetric (`compare(a, b) == -compare(b, a)`), for all containers of any
capacities. -/
theorem claim_C9_compare_algebra {N1 N2 : Nat} (a : string N1) (b : string N2) :
    string.compare a a = 0 ∧ string.compare a b = -string.compare b a := by
  constructor
  · unfold string.compare string.len
    exact (detail.strcmp_full_content_iff a.content a.content).mpr rfl
  · unfold string.compare string.len
    exact detail.strcmp_full_antisym a.content a.content.length b.content b.content.length

/-- C3 counterexample: the claim says `s.compare(null) > 0` for every `s`
including the empty container, but the code returns 0 for the empty
container compared against a null pointer. -/
theorem claim_C3_counterexample : ¬ (0 < (string.empty 4).compare_cstr none) := by decide

/-- C3 (amended): comparing against a null character pointer reports the
present side as strictly greater for every nonempty container; the empty
container compares equal (result 0). -/
theorem claim_C3_null_compare {N : Nat} (s : string N) :
    (0 < s.len → s.compare_cstr none = 1) ∧ (s.len = 0 → s.compare_cstr none = 0) := by
  unfold string.compare_cstr
  constructor
  · intro h
    simp [h]
  · intro h
    simp [h]

/-- C3 witness: the amended statement at a nonempty and at an empty concrete
container. -/
theorem claim_C3_null_compare_witness :
    ((string.empty 3).append [7]).compare_cstr none = 1 ∧
    (string.empty 3).compare_cstr none = 0 :=
  ⟨(claim_C3_null_compare ((string.empty 3).append [7])).1 (by decide),
   (claim_C3_null_compare (string.empty 3)).2 (by decide)⟩

/-- C8: for every container and every search key — raw sequence (null or
present), container, or single character — `contains` holds exactly when the
corresponding `find` does not return the not-found sentinel. -/
theorem claim_C8_contains_iff_find {N M : Nat} (s : string N) (t : string M)
    (str : Option (List Nat)) (ch : Nat) :
    (s.contains_cstr str = true ↔ s.find_cstr str 0 ≠ detail.npos) ∧
    (s.contains_str t = true ↔ s.find_str t 0 ≠ detail.npos) ∧
    (s.contains_ch ch = true ↔ s.find_ch ch 0 ≠ detail.npos) := by
  unfold string.contains_cstr string.contains_str string.contains_ch
  refine ⟨?_, ?_, ?_⟩ <;> simp [bne_iff_ne]

/-- C2: `concat(a, b)` produces a container of static capacity `N1 + N2`
(visible in the type of `concat`) whose content is `a`'s content followed by
`b`'s content and whose length is the sum of the lengths — no truncation for
any content lengths.  The member `append` that `concat` delegates to is
modelled from the spec (its defining header is not among the sources). -/
theorem claim_C2_concat_exact {N1 N2 : Nat} (a : string N1) (b : string N2) :
    (concat a b).content = a.content ++ b.content ∧
    (concat a b).len = a.len + b.len := by
  have ha := a.length_le
  have hb := b.length_le
  have h1 : (concat a b).content = a.content ++ b.content := by
    simp only [concat, string.append, string.empty, List.nil_append, List.length_nil,
      Nat.sub_zero]
    rw [List.take_of_length_le (by omega)]
    rw [List.take_of_length_le (by omega)]
  refine ⟨h1, ?_⟩
  unfold string.len
  rw [h1]
  simp

end zuu

/-! ## Overlap-safe move (C5) -/

namespace zuu

namespace detail

theorem copy_fwd_untouched :
    ∀ (c : Nat) (buf : Nat → Nat) (d s x : Nat), (x < d ∨ d + c ≤ x) →
      copy_fwd buf d s c x = buf x
  | 0, _, _, _, _, _ => rfl
  | c + 1, buf, d, s, x, hx => by
    have hrec := copy_fwd_untouched c (upd buf d (buf s)) (d + 1) (s + 1) x (by omega)
    have hne : x ≠ d := by omega
    simp only [copy_fwd, hrec, upd, if_neg hne]

theorem copy_fwd_spec :
    ∀ (c : Nat) (buf : Nat → Nat) (d s : Nat), d < s → ∀ i, i < c →
      copy_fwd buf d s c (d + i) = buf (s + i)
  | c + 1, buf, d, s, hds, 0, _ => by
    have h2 := copy_fwd_untouched c (upd buf d (buf s)) (d + 1) (s + 1) d
      (Or.inl (by omega))
    simp [copy_fwd, h2, upd]
  | c + 1, buf, d, s, hds, i + 1, hi => by
    have ih := copy_fwd_spec c (upd buf d (buf s)) (d + 1) (s + 1) (by omega) i (by omega)
    have harr : d + (i + 1) = (d + 1) + i := by omega
    have harr2 : s + (i + 1) = (s + 1) + i := by omega
    have hne : (s + 1) + i ≠ d := by omega
    simp only [copy_fwd, harr, harr2, ih, upd, if_neg hne]

theorem copy_bwd_untouched :
    ∀ (c : Nat) (buf : Nat → Nat) (d s x : Nat), (x < d ∨ d + c ≤ x) →
      copy_bwd buf d s c x = buf x
  | 0, _, _, _, _, _ => rfl
  | c + 1, buf, d, s, x, hx => by
    have hrec := copy_bwd_untouched c (upd buf (d + c) (buf (s + c))) d s x (by omega)
    have hne : x ≠ d + c := by omega
    simp only [copy_bwd, hrec, upd, if_neg hne]

theorem copy_bwd_spec :
    ∀ (c : Nat) (buf : Nat → Nat) (d s : Nat), s < d → ∀ i, i < c →
      copy_bwd buf d s c (d + i) = buf (s + i)
  | c + 1, buf, d, s, hds, i, hi => by
    by_cases hlast : i = c
    · have h2 := copy_bwd_untouched c (upd buf (d + c) (buf (s + c))) d s (d + c)
        (Or.inr (Nat.le_refl _))
      rw [hlast]
      simp [copy_bwd, h2, upd]
    · have ih := copy_bwd_spec c (upd buf (d + c) (buf (s + c))) d s hds i (by omega)
      have hne : s + i ≠ d + c := by omega
      simp only [copy_bwd, ih, upd, if_neg hne]

end detail

/-- C5: for every buffer, destination index, source index and count, and every
offset `i < count`, the overlap-safe move leaves `dest[i]` holding the value
`src[i]` held before the call — the direction choice (forward when the
destination precedes the source, backward otherwise) makes this hold for any
overlap, with no temporary buffer. -/
theorem claim_C5_memmove_overlap_safe (buf : Nat → Nat) (d s c i : Nat)
    (hi : i < c) :
    detail.memmove_string buf d s c (d + i) = buf (s + i) := by
  unfold detail.memmove_string
  by_cases h0 : d = s ∨ c = 0
  · rw [if_pos h0]
    rcases h0 with h | h
    · rw [h]
    · omega
  · rw [if_neg h0]
    by_cases hds : d < s
    · rw [if_pos hds]
      exact detail.copy_fwd_spec c buf d s hds i hi
    · rw [if_neg hds]
      have hsd : s < d := by
        rcases not_or.mp h0 with ⟨h1, _⟩
        omega
      exact detail.copy_bwd_spec c buf d s hsd i hi

/-- C5 witness: moving three units one slot to the right inside a concrete
buffer transfers the original source values. -/
theorem claim_C5_memmove_witness :
    (0 : Nat) < 3 ∧
    detail.memmove_string (fun x => x * 10) 1 0 3 (1 + 0) = (fun x => x * 10) (0 + 0) :=
  ⟨by decide, claim_C5_memmove_overlap_safe (fun x => x * 10) 1 0 3 0 (by decide)⟩

end zuu

/-! ## Hashing (C6) -/

namespace zuu

namespace detail

theorem hash_loop_eq_foldl :
    ∀ (rem : Nat) (str : List Nat) (h i : Nat), i + rem ≤ str.length →
      hash_loop str h i rem = ((str.drop i).take rem).foldl hash_step h
  | 0, _, _, _, _ => by simp [hash_loop]
  | rem + 1, str, h, i, hle => by
    have hilt : i < str.length := by omega
    have hdrop : str.drop i = str[i] :: str.drop (i + 1) := List.drop_eq_getElem_cons hilt
    have hget : str.getD i 0 = str[i] := List.getD_eq_getElem str 0 hilt
    have ih := hash_loop_eq_foldl rem str (hash_step h str[i]) (i + 1) (by omega)
    calc hash_loop str h i (rem + 1)
        = hash_loop str (hash_step h (str.getD i 0)) (i + 1) rem := rfl
      _ = ((str.drop (i + 1)).take rem).foldl hash_step (hash_step h str[i]) := by
            rw [hget, ih]
      _ = ((str.drop i).take (rem + 1)).foldl hash_step h := by
            rw [hdrop, List.take_succ_cons, List.foldl_cons]

end detail

/-- C6: `hash_fnv1a(seq, len)` computes exactly the 64-bit FNV-1a fold — start
from the offset basis 14695981039346656037 and, for each unit in index order,
XOR in its unsigned byte value then multiply by 1099511628211, modulo `2^64`
(`fnv1a_spec` is that fold written from the spec's words); consequently two
containers with equal content hash identically. -/
theorem claim_C6_hash_fnv1a (s : List Nat) {N1 N2 : Nat} (a : string N1)
    (b : string N2) (hco : a.content = b.content) :
    detail.hash_fnv1a s s.length = fnv1a_spec s ∧ a.hash = b.hash := by
  constructor
  · unfold detail.hash_fnv1a fnv1a_spec
    have h := detail.hash_loop_eq_foldl s.length s detail.FNV_OFFSET 0 (by omega)
    simpa using h
  · unfold string.hash string.len
    rw [hco]

/-- C6 witness: the refinement at the one-unit sequence `[97]` and the
content-determined hash at two concrete containers of different capacities
holding the same content. -/
theorem claim_C6_hash_witness :
    detail.hash_fnv1a [97] ([97] : List Nat).length = fnv1a_spec [97] ∧
    ((string.empty 3).append [97]).hash = ((string.empty 5).append [97]).hash :=
  claim_C6_hash_fnv1a [97] ((string.empty 3).append [97]) ((string.empty 5).append [97])
    (by decide)

end zuu

/-! ## Decimal conversion (C10, C7) -/

namespace zuu

theorem lsd_chars_fuel_eq :
    ∀ (fuel v : Nat), v ≤ fuel →
      lsd_chars_fuel fuel v = (Nat.digits 10 v).map (fun d => 48 + d)
  | fuel, 0, _ => by cases fuel <;> simp [lsd_chars_fuel]
  | 0, _ + 1, h => by omega
  | fuel + 1, v + 1, h => by
    have hdig := Nat.digits_def' (by norm_num : 1 < 10) (Nat.succ_pos v)
    have ih := lsd_chars_fuel_eq fuel ((v + 1) / 10) (by omega)
    simp [lsd_chars_fuel, ih, hdig]

theorem lsd_chars_eq_digits (v : Nat) :
    lsd_chars v = (Nat.digits 10 v).map (fun d => 48 + d) :=
  lsd_chars_fuel_eq v v (Nat.le_refl v)

namespace detail

theorem digits_loop_eq_take :
    ∀ (room temp : Nat), digits_loop temp room = (lsd_chars temp).take room
  | 0, temp => by simp [digits_loop]
  | room + 1, temp => by
    by_cases h : temp = 0
    · subst h
      simp [digits_loop, lsd_chars_eq_digits]
    · have hdig := Nat.digits_def' (by norm_num : 1 < 10) (Nat.pos_of_ne_zero h)
      have ih := digits_loop_eq_take room (temp / 10)
      rw [lsd_chars_eq_digits] at ih ⊢
      simp [digits_loop, h, hdig, ih]

theorem count_digits_fuel_eq :
    ∀ (fuel v : Nat), v ≤ fuel → count_digits_fuel fuel v = (Nat.digits 10 v).length
  | fuel, 0, _ => by cases fuel <;> simp [count_digits_fuel]
  | 0, _ + 1, h => by omega
  | fuel + 1, v + 1, h => by
    have hdig := Nat.digits_def' (by norm_num : 1 < 10) (Nat.succ_pos v)
    have ih := count_digits_fuel_eq fuel ((v + 1) / 10) (by omega)
    simp [count_digits_fuel, ih, hdig]

theorem count_digits_eq (v : Nat) (hv : 0 < v) :
    count_digits v = (Nat.digits 10 v).length := by
  unfold count_digits
  rw [if_neg (by omega)]
  exact count_digits_fuel_eq v v (Nat.le_refl v)

theorem uint_to_chars_no_truncation (cap m : Nat) (hm : 0 < m)
    (hfit : (Nat.digits 10 m).length ≤ cap) :
    uint_to_chars cap m = dec_rep m := by
  have hne : Nat.digits 10 m ≠ [] := Nat.digits_ne_nil_iff_ne_zero.mpr (by omega)
  have hlen : 0 < (Nat.digits 10 m).length := List.length_pos.mpr hne
  unfold uint_to_chars
  rw [if_neg (by omega), if_neg (by omega)]
  rw [digits_loop_eq_take cap m]
  unfold dec_rep
  rw [List.take_of_length_le]
  rw [lsd_chars_eq_digits]
  simpa using hfit

end detail

/-- C10: when the decimal digit count of `value` exceeds the positive buffer
capacity, `uint_to_chars` writes exactly `capacity` characters — the
`capacity` least-significant decimal digits, most significant of those first —
returns `capacity` (the length of the written sequence), and the output is a
suffix of the full decimal representation; `count_digits` and the spec-side
digit sequence are both grounded in Mathlib's `Nat.digits`. -/
theorem claim_C10_uint_truncation (cap v : Nat) (hcap : 0 < cap)
    (hgt : cap < detail.count_digits v) :
    detail.uint_to_chars cap v = ((lsd_chars v).take cap).reverse ∧
    (detail.uint_to_chars cap v).length = cap ∧
    List.IsSuffix (detail.uint_to_chars cap v) (dec_rep v) ∧
    detail.count_digits v = (Nat.digits 10 v).length ∧
    lsd_chars v = (Nat.digits 10 v).map (fun d => 48 + d) := by
  have hv : 0 < v := by
    rcases Nat.eq_zero_or_pos v with h | h
    · subst h
      simp [detail.count_digits] at hgt
      omega
    · exact h
  have hcnt := detail.count_digits_eq v hv
  have h1 : detail.uint_to_chars cap v = ((lsd_chars v).take cap).reverse := by
    unfold detail.uint_to_chars
    rw [if_neg (by omega), if_neg (by omega), detail.digits_loop_eq_take cap v]
  have hdiglen : (lsd_chars v).length = (Nat.digits 10 v).length := by
    rw [lsd_chars_eq_digits]
    simp
  refine ⟨h1, ?_, ?_, hcnt, lsd_chars_eq_digits v⟩
  · rw [h1]
    simp only [List.length_reverse, List.length_take]
    omega
  · rw [h1]
    unfold dec_rep
    exact ⟨((lsd_chars v).drop cap).reverse, by
      rw [← List.reverse_append, List.take_append_drop]⟩

/-- C10 witness: converting 12345 into a 2-slot buffer writes exactly the two
least-significant digits "45". -/
theorem claim_C10_uint_truncation_witness :
    0 < 2 ∧ 2 < detail.count_digits 12345 ∧
    (detail.uint_to_chars 2 12345 = ((lsd_chars 12345).take 2).reverse ∧
     (detail.uint_to_chars 2 12345).length = 2 ∧
     List.IsSuffix (detail.uint_to_chars 2 12345) (dec_rep 12345) ∧
     detail.count_digits 12345 = (Nat.digits 10 12345).length ∧
     lsd_chars 12345 = (Nat.digits 10 12345).map (fun d => 48 + d)) :=
  ⟨by decide, by decide, claim_C10_uint_truncation 2 12345 (by decide) (by decide)⟩

end zuu

namespace zuu

/-- C7 counterexample: at capacity 2 the signed conversion of -123 writes the
sign followed by the single least-significant digit ("-3"), not the minus sign
followed by all base-10 digits of the magnitude ("-123"), although the
capacity is ≥ 2 — refuting the claim as universally stated over capacities. -/
theorem claim_C7_counterexample :
    detail.int_to_chars 32 2 (-123) = [45, 51] ∧
    detail.int_to_chars 32 2 (-123) ≠ 45 :: dec_rep 123 := by decide

/-- C7 (amended): for every negative value of a width-`w` signed type and
capacity ≥ 2, the conversion writes a leading minus sign followed by the
unsigned conversion of the magnitude into the remaining capacity − 1 slots —
which is all base-10 digits of the magnitude whenever they fit
(capacity ≥ 1 + digit count), and the least-significant digits otherwise; the
magnitude of the most negative representable value is computed as the unsigned
quantity `-(v+1)+1`, which equals `|v|` exactly, so no signed overflow occurs;
for negative values with capacity < 2 nothing is written and 0 is returned. -/
theorem claim_C7_int_to_chars (w cap : Nat) (v : Int) (hneg : v < 0) :
    (2 ≤ cap →
      detail.int_to_chars w cap v = 45 :: detail.uint_to_chars (cap - 1) v.natAbs) ∧
    ((-(v + 1)).toNat + 1 = v.natAbs) ∧
    (2 ≤ cap → (Nat.digits 10 v.natAbs).length + 1 ≤ cap →
      detail.int_to_chars w cap v = 45 :: dec_rep v.natAbs) ∧
    (cap < 2 → detail.int_to_chars w cap v = []) := by
  have hmag1 : (-(v + 1)).toNat + 1 = v.natAbs := by omega
  have hmag2 : (-v).toNat = v.natAbs := by omega
  have habs : 0 < v.natAbs := by omega
  have h1 : 2 ≤ cap →
      detail.int_to_chars w cap v = 45 :: detail.uint_to_chars (cap - 1) v.natAbs := by
    intro hcap
    unfold detail.int_to_chars
    rw [if_neg (by omega), if_pos hneg, if_neg (by omega)]
    by_cases hmin : v = -(2 ^ (w - 1) : Int)
    · rw [if_pos hmin, hmag1]
    · rw [if_neg hmin, hmag2]
  refine ⟨h1, hmag1, ?_, ?_⟩
  · intro hcap hfit
    rw [h1 hcap]
    rw [detail.uint_to_chars_no_truncation (cap - 1) v.natAbs habs (by omega)]
  · intro hcap
    unfold detail.int_to_chars
    by_cases h0 : cap = 0
    · rw [if_pos h0]
    · rw [if_neg h0, if_pos hneg, if_pos hcap]

/-- C7 witness: converting the most negative 32-bit value -2147483648 with
capacity 12 exercises the `-(v+1)+1` magnitude path. -/
theorem claim_C7_int_to_chars_witness :
    (-2147483648 : Int) < 0 ∧
    ((2 ≤ 12 →
        detail.int_to_chars 32 12 (-2147483648) =
          45 :: detail.uint_to_chars (12 - 1) (-2147483648 : Int).natAbs) ∧
     ((-((-2147483648 : Int) + 1)).toNat + 1 = (-2147483648 : Int).natAbs) ∧
     (2 ≤ 12 → (Nat.digits 10 (-2147483648 : Int).natAbs).length + 1 ≤ 12 →
        detail.int_to_chars 32 12 (-2147483648) = 45 :: dec_rep (-2147483648 : Int).natAbs) ∧
     (12 < 2 → detail.int_to_chars 32 12 (-2147483648) = [])) :=
  ⟨by decide, claim_C7_int_to_chars 32 12 (-2147483648) (by decide)⟩

end zuu

/-! ## Substring search (C4) -/

namespace zuu

namespace detail

theorem match_at_iff (hay nd : List Nat) (nl i : Nat) (hnl : nl = nd.length)
    (hfit : i + nl ≤ hay.length) :
    match_at hay nd nl i = true ↔ matches_at hay nd i := by
  subst hnl
  unfold match_at matches_at
  rw [List.all_eq_true]
  constructor
  · intro h
    refine ⟨hfit, fun j hj => ?_⟩
    have hh := h j (List.mem_range.mpr hj)
    simpa using hh
  · intro h x hx
    have hj := List.mem_range.mp hx
    simpa using h.2 x hj

theorem find_loop_succ (hay nd : List Nat) (nl i rem : Nat) :
    find_loop hay nd nl i (rem + 1) =
      if match_at hay nd nl i then i else find_loop hay nd nl (i + 1) rem := rfl

theorem find_loop_found (hay nd : List Nat) (nl : Nat) :
    ∀ (rem i : Nat), find_loop hay nd nl i rem ≠ npos →
      i ≤ find_loop hay nd nl i rem ∧
      find_loop hay nd nl i rem < i + rem ∧
      match_at hay nd nl (find_loop hay nd nl i rem) = true ∧
      ∀ k, i ≤ k → k < find_loop hay nd nl i rem → match_at hay nd nl k = false
  | 0, i, hne => absurd rfl hne
  | rem + 1, i, hne => by
    by_cases hm : match_at hay nd nl i
    · have hres : find_loop hay nd nl i (rem + 1) = i := by
        rw [find_loop_succ, if_pos hm]
      rw [hres]
      exact ⟨Nat.le_refl i, by omega, hm, fun k hk1 hk2 => by omega⟩
    · have hres : find_loop hay nd nl i (rem + 1) = find_loop hay nd nl (i + 1) rem := by
        rw [find_loop_succ, if_neg hm]
      rw [hres] at hne ⊢
      obtain ⟨h1, h2, h3, h4⟩ := find_loop_found hay nd nl rem (i + 1) hne
      refine ⟨by omega, by omega, h3, fun k hk1 hk2 => ?_⟩
      by_cases hki : k = i
      · subst hki
        exact Bool.of_not_eq_true hm
      · exact h4 k (by omega) hk2

theorem find_loop_none (hay nd : List Nat) (nl : Nat) :
    ∀ (rem i : Nat), i + rem ≤ npos → find_loop hay nd nl i rem = npos →
      ∀ k, i ≤ k → k < i + rem → match_at hay nd nl k = false
  | 0, i, _, _ => fun k hk1 hk2 => by omega
  | rem + 1, i, hb, hres => by
    by_cases hm : match_at hay nd nl i
    · exfalso
      have hi : find_loop hay nd nl i (rem + 1) = i := by
        rw [find_loop_succ, if_pos hm]
      rw [hi] at hres
      omega
    · have hrec : find_loop hay nd nl i (rem + 1) = find_loop hay nd nl (i + 1) rem := by
        rw [find_loop_succ, if_neg hm]
      rw [hrec] at hres
      have ih := find_loop_none hay nd nl rem (i + 1) (by omega) hres
      intro k hk1 hk2
      by_cases hki : k = i
      · subst hki
        exact Bool.of_not_eq_true hm
      · exact ih k (by omega) (by omega)

end detail

/-- C4: for every haystack span, needle span and start position (with the span
lengths matching the lists and the haystack length below the sentinel),
`find_substring` returns `pos` itself when the needle is empty and
`pos ≤ hLen`; returns the not-found sentinel when the needle is empty and
`pos > hLen`, and whenever the needle is longer than the remaining haystack
(`nLen > hLen − pos`); and otherwise returns the smallest index `i ≥ pos` at
which the needle matches the haystack, or the sentinel if no such index
exists. -/
theorem claim_C4_find_substring (hay nd : List Nat) (hl nl pos : Nat)
    (hhl : hl = hay.length) (hnl : nl = nd.length) (hb : hl < detail.npos) :
    (nl = 0 → pos ≤ hl → detail.find_substring hay hl nd nl pos = pos) ∧
    (nl = 0 → hl < pos → detail.find_substring hay hl nd nl pos = detail.npos) ∧
    (0 < nl → hl - pos < nl → detail.find_substring hay hl nd nl pos = detail.npos) ∧
    (0 < nl → nl ≤ hl - pos →
      ((detail.find_substring hay hl nd nl pos ≠ detail.npos →
          pos ≤ detail.find_substring hay hl nd nl pos ∧
          detail.matches_at hay nd (detail.find_substring hay hl nd nl pos) ∧
          ∀ k, pos ≤ k → detail.matches_at hay nd k →
            detail.find_substring hay hl nd nl pos ≤ k) ∧
       (detail.find_substring hay hl nd nl pos = detail.npos →
          ∀ k, pos ≤ k → ¬ detail.matches_at hay nd k))) := by
  refine ⟨?_, ?_, ?_, ?_⟩
  · intro h0 hle
    unfold detail.find_substring
    rw [if_pos h0, if_pos hle]
  · intro h0 hgt
    unfold detail.find_substring
    rw [if_pos h0, if_neg (by omega)]
  · intro hpos hrem
    unfold detail.find_substring
    rw [if_neg (by omega)]
    by_cases hbig : nl > hl
    · rw [if_pos hbig]
    · rw [if_neg hbig, if_pos (by omega)]
  · intro hpos hrem
    have hple : pos + nl ≤ hl := by omega
    have hres : detail.find_substring hay hl nd nl pos =
        detail.find_loop hay nd nl pos (hl - nl + 1 - pos) := by
      unfold detail.find_substring
      rw [if_neg (by omega), if_neg (by omega), if_neg (by omega)]
    have hsum : pos + (hl - nl + 1 - pos) = hl - nl + 1 := by omega
    constructor
    · intro hne
      rw [hres] at hne ⊢
      obtain ⟨h1, h2, h3, h4⟩ := detail.find_loop_found hay nd nl (hl - nl + 1 - pos) pos hne
      rw [hsum] at h2
      have hfit : detail.find_loop hay nd nl pos (hl - nl + 1 - pos) + nl ≤ hay.length := by
        omega
      have hm := (detail.match_at_iff hay nd nl _ hnl hfit).mp h3
      refine ⟨h1, hm, fun k hk1 hk2 => ?_⟩
      by_contra hlt
      have hkfit : k + nl ≤ hay.length := by
        have := hk2.1
        omega
      have hkm := (detail.match_at_iff hay nd nl k hnl hkfit).mpr hk2
      have := h4 k hk1 (by omega)
      rw [hkm] at this
      exact absurd this (by decide)
    · intro heq k hk1 hk2
      rw [hres] at heq
      have hnone := detail.find_loop_none hay nd nl (hl - nl + 1 - pos) pos
        (by omega) heq
      have hkfit : k + nl ≤ hay.length := by
        have := hk2.1
        omega
      have hkm := (detail.match_at_iff hay nd nl k hnl hkfit).mpr hk2
      have hkr : k < pos + (hl - nl + 1 - pos) := by omega
      have := hnone k hk1 hkr
      rw [hkm] at this
      exact absurd this (by decide)

/-- C4 witness: searching "ll" inside "Hello" from position 0 finds it at
index 2 and the instantiated specification holds. -/
theorem claim_C4_find_substring_witness :
    5 = ([72, 101, 108, 108, 111] : List Nat).length ∧
    2 = ([108, 108] : List Nat).length ∧
    5 < detail.npos ∧
    ((2 = 0 → 0 ≤ 5 → detail.find_substring [72, 101, 108, 108, 111] 5 [108, 108] 2 0 = 0) ∧
     (2 = 0 → 5 < 0 → detail.find_substring [72, 101, 108, 108, 111] 5 [108, 108] 2 0 = detail.npos) ∧
     (0 < 2 → 5 - 0 < 2 → detail.find_substring [72, 101, 108, 108, 111] 5 [108, 108] 2 0 = detail.npos) ∧
     (0 < 2 → 2 ≤ 5 - 0 →
       ((detail.find_substring [72, 101, 108, 108, 111] 5 [108, 108] 2 0 ≠ detail.npos →
           0 ≤ detail.find_substring [72, 101, 108, 108, 111] 5 [108, 108] 2 0 ∧
           detail.matches_at [72, 101, 108, 108, 111] [108, 108]
             (detail.find_substring [72, 101, 108, 108, 111] 5 [108, 108] 2 0) ∧
           ∀ k, 0 ≤ k → detail.matches_at [72, 101, 108, 108, 111] [108, 108] k →
             detail.find_substring [72, 101, 108, 108, 111] 5 [108, 108] 2 0 ≤ k) ∧
        (detail.find_substring [72, 101, 108, 108, 111] 5 [108, 108] 2 0 = detail.npos →
           ∀ k, 0 ≤ k → ¬ detail.matches_at [72, 101, 108, 108, 111] [108, 108] k)))) :=
  ⟨by decide, by decide, by decide,
   claim_C4_find_substring [72, 101, 108, 108, 111] [108, 108] 5 2 0
     (by decide) (by decide) (by decide)⟩

end zuu
